import Mathlib

/-!
Shallow embedding of the parallel brute-force coordinator of
`attack/parallel_attack.py` and of the rainbow-table variant
`attack/parallel_rainbow_attack.py` from the M183_Bruteforce repository,
together with proofs of the partitioning, worker-loop, aggregation and
candidate-generation properties stated in the specification.
-/

namespace ParallelAttack

variable {α : Type*} {β : Type*}

/-- Result of `try_post` (attack/parallel_attack.py, lines 49-55): either an
HTTP response carrying a status code, or `err` when the request raised an
exception and `None` was returned. -/
inductive ProbeResult where
  | resp (status : Nat)
  | err
deriving DecidableEq, Repr

/-- Success test of the worker loop (line 114): `r and r.status_code == 200`.
An `err` (None) response is falsy and therefore a failed attempt. -/
def isSuccess : ProbeResult → Bool
  | ProbeResult.resp s => s == 200
  | ProbeResult.err => false

/-- Terminal state of a worker: pushed the password (line 119), exhausted its
partition (line 125), or stopped after observing the found event (line 107). -/
inductive WorkerState where
  | Found
  | Exhausted
  | Cancelled
deriving DecidableEq, Repr

/-- A message pushed onto the result queue (line 117): worker id, the winning
candidate, and the worker's local attempt count. -/
structure Msg where
  worker_id : Nat
  candidate : String
  attempts : Nat
deriving DecidableEq, Repr

/-- Model of Python `itertools.islice(xs, start, None, step)`: every step-th
element of `xs` beginning at index `start`.  This is the partitioner
`islice(candidates, worker_id, None, num_workers)` of line 103 (and of
parallel_rainbow_attack.py line 66). -/
def isliceStep (start step : Nat) : List α → List α
  | [] => []
  | x :: xs =>
    match start with
    | 0 => x :: isliceStep (step - 1) step xs
    | s + 1 => isliceStep s step xs

theorem isliceStep_nil (s k : Nat) : isliceStep s k ([] : List α) = [] := rfl

theorem isliceStep_cons_zero (k : Nat) (x : α) (xs : List α) :
    isliceStep 0 k (x :: xs) = x :: isliceStep (k - 1) k xs := rfl

theorem isliceStep_cons_succ (s k : Nat) (x : α) (xs : List α) :
    isliceStep (s + 1) k (x :: xs) = isliceStep s k xs := rfl

/-- The j-th element of the partition with offset `s` and stride `k` is the
element of the full sequence at global index `s + j * k`. -/
theorem isliceStep_getElem? (k : Nat) (hk : 1 ≤ k) :
    ∀ (xs : List α) (s j : Nat), (isliceStep s k xs)[j]? = xs[s + j * k]? := by
  intro xs
  induction xs with
  | nil => intro s j; simp [isliceStep]
  | cons x xs ih =>
    intro s j
    match s with
    | 0 =>
      rw [isliceStep_cons_zero]
      match j with
      | 0 => simp
      | j + 1 =>
        have h1 : (x :: isliceStep (k - 1) k xs)[j + 1]? = (isliceStep (k - 1) k xs)[j]? := by
          simp
        rw [h1, ih (k - 1) j]
        have h2 : 0 + (j + 1) * k = (k - 1 + j * k) + 1 := by
          have h3 : (j + 1) * k = j * k + k := Nat.succ_mul j k
          rw [h3]
          omega
        rw [h2]
        simp
    | s + 1 =>
      rw [isliceStep_cons_succ, ih s j]
      have h4 : s + 1 + j * k = (s + j * k) + 1 := by omega
      rw [h4]
      simp

/-- With a single worker the partition is the identity sequence. -/
theorem isliceStep_one : ∀ xs : List α, isliceStep 0 1 xs = xs := by
  intro xs
  induction xs with
  | nil => rfl
  | cons x xs ih => rw [isliceStep_cons_zero]; simpa using ih

/-- The concatenation of the k workers' partitions is a permutation of the
full sequence: every item is owned by exactly one worker, no overlap, no
gap. -/
theorem flatten_parts_perm (k : Nat) (hk : 1 ≤ k) :
    ∀ xs : List α, (((List.range k).map (fun w => isliceStep w k xs)).flatten).Perm xs := by
  obtain ⟨n, rfl⟩ : ∃ n, k = n + 1 := ⟨k - 1, by omega⟩
  intro xs
  induction xs with
  | nil =>
    have h : ∀ w, isliceStep w (n + 1) ([] : List α) = [] := fun w => rfl
    simp [h]
  | cons x xs ih =>
    have htail : ∀ w, isliceStep (w + 1) (n + 1) (x :: xs) = isliceStep w (n + 1) xs :=
      fun w => rfl
    have hmapcons :
        (List.range (n + 1)).map (fun w => isliceStep w (n + 1) (x :: xs)) =
          (x :: isliceStep n (n + 1) xs) ::
            (List.range n).map (fun w => isliceStep w (n + 1) xs) := by
      rw [List.range_succ_eq_map, List.map_cons, List.map_map]
      refine congrArg₂ _ rfl ?_
      refine List.map_congr_left ?_
      intro w _
      simpa using htail w
    rw [hmapcons, List.flatten_cons, List.cons_append]
    refine List.Perm.trans (List.Perm.cons x List.perm_append_comm) ?_
    refine List.Perm.cons x ?_
    have hsplit :
        ((List.range (n + 1)).map (fun w => isliceStep w (n + 1) xs)).flatten =
          ((List.range n).map (fun w => isliceStep w (n + 1) xs)).flatten ++
            isliceStep n (n + 1) xs := by
      rw [List.range_succ, List.map_append, List.flatten_append]
      simp
    rw [← hsplit]
    exact ih

/-- C1: for every worker count k >= 1 and worker id below k, the partition
`islice(candidates, worker_id, None, num_workers)` consists of exactly the
items whose 0-based position i satisfies i mod k = worker_id (its j-th
element is the item at global index worker_id + j * k, and those indices are
exactly the ones congruent to worker_id mod k); on any prefix of length m the
k partitions together form a permutation of the prefix (no overlap, no gap);
and for k = 1 the partition is the identity sequence. -/
theorem partition_complete_disjoint (k wid m : Nat) (xs : List String)
    (hk : 1 ≤ k) (hw : wid < k) :
    (∀ j, (isliceStep wid k xs)[j]? = xs[wid + j * k]?) ∧
    (∀ i : Nat, i % k = wid ↔ ∃ j, i = wid + j * k) ∧
    ((((List.range k).map (fun w => isliceStep w k (xs.take m))).flatten).Perm (xs.take m)) ∧
    isliceStep 0 1 xs = xs := by
  refine ⟨fun j => isliceStep_getElem? k hk xs wid j, fun i => ?_,
    flatten_parts_perm k hk (xs.take m), isliceStep_one xs⟩
  constructor
  · intro h
    refine ⟨i / k, ?_⟩
    rw [← h]
    exact (Nat.mod_add_div' i k).symm
  · rintro ⟨j, rfl⟩
    rw [Nat.add_mul_mod_self_right]
    exact Nat.mod_eq_of_lt hw

/-- Concrete instance of the partition property: two workers over a prefix of
length three of a four-item sequence, and the single-worker identity. -/
theorem partition_complete_disjoint_witness :
    (isliceStep 1 2 (["a", "b", "c", "d"].take 3))[0]? =
      (["a", "b", "c", "d"].take 3)[1 + 0 * 2]? ∧
    ((((List.range 2).map (fun w => isliceStep w 2 (["a", "b", "c", "d"].take 3))).flatten).Perm
      (["a", "b", "c", "d"].take 3)) ∧
    isliceStep 0 1 (["x", "y"] : List String) = ["x", "y"] := by
  have h := partition_complete_disjoint 2 1 3 ["a", "b", "c", "d"] (by decide) (by decide)
  have h2 := partition_complete_disjoint 1 0 0 ["x", "y"] (by decide) (by decide)
  exact ⟨h.1 0, h.2.2.1, h2.2.2.2⟩

/-- One worker's loop (attack/parallel_attack.py, lines 102-125), run over its
assigned partition. `cancel n` is the value the call `found_event.is_set()`
returns at the check preceding the n-th pull (0-based; n equals the current
local attempt count, since each loop iteration performs exactly one probe and
one increment). `probe` gives the `try_post` outcome for a candidate.
Returned are the terminal state, the final local attempt count, and the list
of messages the worker pushed onto the result queue. -/
def runWorker (wid : Nat) (cancel : Nat → Bool) (probe : String → ProbeResult) :
    List String → Nat → WorkerState × Nat × List Msg
  | [], attempts => (WorkerState.Exhausted, attempts, [])
  | c :: rest, attempts =>
    if cancel attempts then (WorkerState.Cancelled, attempts, [])
    else if isSuccess (probe c) then
      (WorkerState.Found, attempts + 1, [⟨wid, c, attempts + 1⟩])
    else runWorker wid cancel probe rest (attempts + 1)

/-- The coordinator's final check (lines 224-234): if the result queue is
nonempty it takes a single message from it and reports success with that
message, otherwise it reports that all workers exhausted the keyspace. -/
def finalReport (queue : List Msg) : Option Msg := queue.head?

theorem runWorker_nil (wid : Nat) (cancel : Nat → Bool) (probe : String → ProbeResult)
    (a : Nat) : runWorker wid cancel probe [] a = (WorkerState.Exhausted, a, []) := rfl

theorem runWorker_cancelled_step (wid : Nat) (cancel : Nat → Bool)
    (probe : String → ProbeResult) (c : String) (rest : List String) (a : Nat)
    (h : cancel a = true) :
    runWorker wid cancel probe (c :: rest) a = (WorkerState.Cancelled, a, []) := by
  simp [runWorker, h]

theorem runWorker_found_step (wid : Nat) (cancel : Nat → Bool)
    (probe : String → ProbeResult) (c : String) (rest : List String) (a : Nat)
    (h : cancel a = false) (hs : isSuccess (probe c) = true) :
    runWorker wid cancel probe (c :: rest) a =
      (WorkerState.Found, a + 1, [⟨wid, c, a + 1⟩]) := by
  simp [runWorker, h, hs]

theorem runWorker_fail_step (wid : Nat) (cancel : Nat → Bool)
    (probe : String → ProbeResult) (c : String) (rest : List String) (a : Nat)
    (h : cancel a = false) (hs : isSuccess (probe c) = false) :
    runWorker wid cancel probe (c :: rest) a = runWorker wid cancel probe rest (a + 1) := by
  simp [runWorker, h, hs]

/-- A worker none of whose pulled candidates probes successfully never reaches
the Found state and pushes no message, whatever the cancellation oracle. -/
theorem runWorker_no_success (wid : Nat) (cancel : Nat → Bool) (probe : String → ProbeResult) :
    ∀ (items : List String) (a : Nat),
      (∀ c ∈ items, isSuccess (probe c) = false) →
      (runWorker wid cancel probe items a).1 ≠ WorkerState.Found ∧
        (runWorker wid cancel probe items a).2.2 = [] := by
  intro items
  induction items with
  | nil => intro a _; rw [runWorker_nil]; exact ⟨by simp, rfl⟩
  | cons c rest ih =>
    intro a h
    by_cases hc : cancel a
    · rw [runWorker_cancelled_step wid cancel probe c rest a hc]
      exact ⟨by simp, rfl⟩
    · have hpc : isSuccess (probe c) = false := h c (List.mem_cons_self c rest)
      rw [runWorker_fail_step wid cancel probe c rest a (by simpa using hc) hpc]
      exact ih (a + 1) (fun d hd => h d (List.mem_cons_of_mem c hd))

/-- With the found event never set, a worker whose candidates all probe
unsuccessfully terminates Exhausted having counted every candidate of its
partition as an attempt. -/
theorem runWorker_exhausts (wid : Nat) (probe : String → ProbeResult) :
    ∀ (items : List String) (a : Nat),
      (∀ c ∈ items, isSuccess (probe c) = false) →
      runWorker wid (fun _ => false) probe items a =
        (WorkerState.Exhausted, a + items.length, []) := by
  intro items
  induction items with
  | nil => intro a _; simpa using runWorker_nil wid (fun _ => false) probe a
  | cons c rest ih =>
    intro a h
    have hpc : isSuccess (probe c) = false := h c (List.mem_cons_self c rest)
    rw [runWorker_fail_step wid (fun _ => false) probe c rest a rfl hpc,
      ih (a + 1) (fun d hd => h d (List.mem_cons_of_mem c hd))]
    refine congrArg _ ?_
    refine congrArg₂ _ ?_ rfl
    simp [List.length_cons]
    omega

/-- With the found event never set, the worker reaches the first successful
candidate of its partition, counts it, and pushes exactly one message carrying
it and the attempt count including the successful attempt. -/
theorem runWorker_found (wid : Nat) (probe : String → ProbeResult) (t : String)
    (ht : isSuccess (probe t) = true) :
    ∀ (pre post : List String) (a : Nat),
      (∀ c ∈ pre, isSuccess (probe c) = false) →
      runWorker wid (fun _ => false) probe (pre ++ t :: post) a =
        (WorkerState.Found, a + pre.length + 1, [⟨wid, t, a + pre.length + 1⟩]) := by
  intro pre
  induction pre with
  | nil =>
    intro post a _
    simpa using runWorker_found_step wid (fun _ => false) probe t post a rfl ht
  | cons c pre ih =>
    intro post a h
    have hpc : isSuccess (probe c) = false := h c (List.mem_cons_self c pre)
    rw [List.cons_append,
      runWorker_fail_step wid (fun _ => false) probe c (pre ++ t :: post) a rfl hpc,
      ih post (a + 1) (fun d hd => h d (List.mem_cons_of_mem c hd))]
    have harith : a + 1 + pre.length + 1 = a + (c :: pre).length + 1 := by
      simp [List.length_cons]
      omega
    rw [harith]

/-- A worker pushes messages only on success: when it terminates Found its
message list is a single message carrying its id and final attempt count, and
in every other terminal state it pushes nothing. -/
theorem runWorker_messages (wid : Nat) (cancel : Nat → Bool) (probe : String → ProbeResult) :
    ∀ (items : List String) (a : Nat),
      ((runWorker wid cancel probe items a).1 = WorkerState.Found →
        ∃ c, (runWorker wid cancel probe items a).2.2 =
          [⟨wid, c, (runWorker wid cancel probe items a).2.1⟩]) ∧
      ((runWorker wid cancel probe items a).1 ≠ WorkerState.Found →
        (runWorker wid cancel probe items a).2.2 = []) := by
  intro items
  induction items with
  | nil =>
    intro a
    rw [runWorker_nil]
    exact ⟨by simp, fun _ => rfl⟩
  | cons c rest ih =>
    intro a
    by_cases hc : cancel a
    · rw [runWorker_cancelled_step wid cancel probe c rest a hc]
      exact ⟨by simp, fun _ => rfl⟩
    · by_cases hs : isSuccess (probe c)
      · rw [runWorker_found_step wid cancel probe c rest a (by simpa using hc) hs]
        exact ⟨fun _ => ⟨c, rfl⟩, by simp⟩
      · rw [runWorker_fail_step wid cancel probe c rest a (by simpa using hc)
          (by simpa using hs)]
        exact ih (a + 1)

/-- Every element of a partition occurs in the full sequence at an index
congruent to the partition offset modulo the stride. -/
theorem mem_isliceStep (k : Nat) (hk : 1 ≤ k) (s : Nat) (xs : List α) (y : α)
    (hy : y ∈ isliceStep s k xs) : ∃ i, i % k = s % k ∧ xs[i]? = some y := by
  rcases List.mem_iff_getElem?.mp hy with ⟨j, hj⟩
  rw [isliceStep_getElem? k hk xs s j] at hj
  exact ⟨s + j * k, by rw [Nat.add_mul_mod_self_right], hj⟩

/-- The partition lengths of the k workers sum to the length of the full
sequence. -/
theorem sum_parts_length (k : Nat) (hk : 1 ≤ k) (xs : List α) :
    ((List.range k).map (fun w => (isliceStep w k xs).length)).sum = xs.length := by
  have hl := (flatten_parts_perm k hk xs).length_eq
  rw [List.length_flatten, List.map_map] at hl
  simpa using hl

/-- C4: when no candidate probes successfully, every worker terminates in the
Exhausted state, its local attempt count equals the size of its partition,
and the attempt counts across all workers sum to the exact size of the
candidate space. -/
theorem exhaustion_deterministic (k : Nat) (xs : List String) (probe : String → ProbeResult)
    (hk : 1 ≤ k) (hfail : ∀ x ∈ xs, isSuccess (probe x) = false) :
    (∀ w, runWorker w (fun _ => false) probe (isliceStep w k xs) 0 =
        (WorkerState.Exhausted, (isliceStep w k xs).length, [])) ∧
    ((List.range k).map
        (fun w => (runWorker w (fun _ => false) probe (isliceStep w k xs) 0).2.1)).sum =
      xs.length := by
  have hworker : ∀ w, runWorker w (fun _ => false) probe (isliceStep w k xs) 0 =
      (WorkerState.Exhausted, (isliceStep w k xs).length, []) := by
    intro w
    have hmem : ∀ c ∈ isliceStep w k xs, isSuccess (probe c) = false := by
      intro c hc
      rcases mem_isliceStep k hk w xs c hc with ⟨i, _, hi⟩
      rcases List.getElem?_eq_some.mp hi with ⟨hlt, hval⟩
      exact hfail c (hval ▸ List.getElem_mem hlt)
    simpa using runWorker_exhausts w probe (isliceStep w k xs) 0 hmem
  refine ⟨hworker, ?_⟩
  have hcongr : (List.range k).map
      (fun w => (runWorker w (fun _ => false) probe (isliceStep w k xs) 0).2.1) =
      (List.range k).map (fun w => (isliceStep w k xs).length) := by
    refine List.map_congr_left ?_
    intro w _
    rw [hworker w]
  rw [hcongr, sum_parts_length k hk xs]

/-- Concrete instance of the exhaustion property: two workers over three
candidates, all rejected with status 401. -/
theorem exhaustion_deterministic_witness :
    runWorker 0 (fun _ => false) (fun _ => ProbeResult.resp 401)
        (isliceStep 0 2 ["a", "b", "c"]) 0 =
      (WorkerState.Exhausted, (isliceStep 0 2 ["a", "b", "c"]).length, []) ∧
    ((List.range 2).map (fun w =>
        (runWorker w (fun _ => false) (fun _ => ProbeResult.resp 401)
          (isliceStep w 2 ["a", "b", "c"]) 0).2.1)).sum = 3 := by
  have h := exhaustion_deterministic 2 ["a", "b", "c"] (fun _ => ProbeResult.resp 401)
    (by decide) (by intro x _; rfl)
  exact ⟨h.1 0, h.2.trans rfl⟩

/-- C3 counterexample: a worker that exhausts its partition without success
pushes no message at all onto the result queue, refuting that every worker
pushes exactly one terminal outcome message regardless of terminal state. -/
theorem worker_terminal_message_counterexample :
    runWorker 0 (fun _ => false) (fun _ => ProbeResult.resp 401) ["a"] 0 =
      (WorkerState.Exhausted, 1, []) := rfl

/-- C3 amended: a worker pushes a result-queue message only in the Found case,
a single message carrying its worker id, the winning candidate and its local
attempt count, and pushes nothing when it terminates Exhausted or Cancelled;
the coordinator does not await per-worker terminal messages but, after joining
the worker processes, reads at most one message (the head) from the queue. -/
theorem worker_terminal_message_amended (wid : Nat) (cancel : Nat → Bool)
    (probe : String → ProbeResult) (items : List String) (a : Nat) :
    ((runWorker wid cancel probe items a).1 = WorkerState.Found →
      ∃ c, (runWorker wid cancel probe items a).2.2 =
        [⟨wid, c, (runWorker wid cancel probe items a).2.1⟩]) ∧
    ((runWorker wid cancel probe items a).1 ≠ WorkerState.Found →
      (runWorker wid cancel probe items a).2.2 = []) ∧
    (∀ queue : List Msg, (finalReport queue).isSome ↔ queue ≠ []) := by
  refine ⟨(runWorker_messages wid cancel probe items a).1,
    (runWorker_messages wid cancel probe items a).2, ?_⟩
  intro queue
  cases queue <;> simp [finalReport]

/-- Concrete instance of the amended message discipline: a cancelled worker
pushes nothing. -/
theorem worker_terminal_message_amended_witness :
    (runWorker 0 (fun _ => true) (fun _ => ProbeResult.err) ["a"] 0).2.2 = [] := by
  have h := worker_terminal_message_amended 0 (fun _ => true) (fun _ => ProbeResult.err) ["a"] 0
  exact h.2.1 (by decide)

/-- C9: a candidate whose probe request errors out (try_post returned None) is
still counted: the loop advances past it with the attempt counter incremented
by exactly one, and a partition consisting entirely of erroring probes
terminates Exhausted with every pulled candidate counted. -/
theorem error_attempt_counted (wid : Nat) (cancel : Nat → Bool)
    (probe : String → ProbeResult) (c : String) (rest : List String) (a : Nat)
    (hca : cancel a = false) (herr : probe c = ProbeResult.err) :
    runWorker wid cancel probe (c :: rest) a = runWorker wid cancel probe rest (a + 1) ∧
    (∀ (items : List String) (a2 : Nat), (∀ d ∈ items, probe d = ProbeResult.err) →
      runWorker wid (fun _ => false) probe items a2 =
        (WorkerState.Exhausted, a2 + items.length, [])) := by
  constructor
  · refine runWorker_fail_step wid cancel probe c rest a hca ?_
    rw [herr]; rfl
  · intro items a2 h
    refine runWorker_exhausts wid probe items a2 ?_
    intro d hd
    rw [h d hd]; rfl

/-- Concrete instance of the error accounting: two erroring candidates are
both counted and the worker exhausts with two attempts. -/
theorem error_attempt_counted_witness :
    runWorker 0 (fun _ => false) (fun _ => ProbeResult.err) ["a", "b"] 0 =
      runWorker 0 (fun _ => false) (fun _ => ProbeResult.err) ["b"] 1 ∧
    runWorker 0 (fun _ => false) (fun _ => ProbeResult.err) ["a", "b"] 0 =
      (WorkerState.Exhausted, 0 + (["a", "b"] : List String).length, []) := by
  have h := error_attempt_counted 0 (fun _ => false) (fun _ => ProbeResult.err)
    "a" ["b"] 0 rfl rfl
  exact ⟨h.1, h.2 ["a", "b"] 0 (fun d _ => rfl)⟩

/-- C10: when the winning candidate is the n-th item a worker probes, the
Found message it pushes carries attempts = n: the counter is incremented
before the success check, so the successful attempt itself is included. -/
theorem found_attempts_include_success (wid : Nat) (probe : String → ProbeResult)
    (t : String) (pre post : List String)
    (hpre : ∀ c ∈ pre, isSuccess (probe c) = false)
    (ht : isSuccess (probe t) = true) :
    runWorker wid (fun _ => false) probe (pre ++ t :: post) 0 =
      (WorkerState.Found, pre.length + 1, [⟨wid, t, pre.length + 1⟩]) := by
  simpa using runWorker_found wid probe t ht pre post 0 hpre

/-- Concrete instance: the winning candidate is the third one probed and the
Found message carries attempts = 3. -/
theorem found_attempts_include_success_witness :
    runWorker 7 (fun _ => false)
        (fun s => if s = "10" then ProbeResult.resp 200 else ProbeResult.resp 401)
        (["0", "1"] ++ "10" :: ["11"]) 0 =
      (WorkerState.Found, 3, [⟨7, "10", 3⟩]) := by
  have h := found_attempts_include_success 7
      (fun s => if s = "10" then ProbeResult.resp 200 else ProbeResult.resp 401)
      "10" ["0", "1"] ["11"] (by decide) (by decide)
  exact h.trans rfl

/-- An element the full sequence holds at some index is a member of it. -/
theorem mem_of_getElem?_eq_some {xs : List α} {i : Nat} {y : α}
    (h : xs[i]? = some y) : y ∈ xs := by
  rcases List.getElem?_eq_some.mp h with ⟨hb, hv⟩
  exact hv ▸ List.getElem_mem hb

/-- Concatenating per-worker message lists in which exactly one worker
produced a single message yields exactly that message. -/
theorem flatten_single (k w0 : Nat) (hw : w0 < k) (f : Nat → List β) (m : β)
    (hf0 : f w0 = [m]) (hf : ∀ w, w < k → w ≠ w0 → f w = []) :
    ((List.range k).map f).flatten = [m] := by
  induction k with
  | zero => omega
  | succ k ih =>
    rw [List.range_succ, List.map_append, List.flatten_append]
    rcases Nat.lt_or_ge w0 k with h | h
    · rw [ih h (fun w hw2 hne => hf w (by omega) hne)]
      have hk : f k = [] := hf k (by omega) (by omega)
      simp [hk]
    · have hw0 : w0 = k := by omega
      have hall : ((List.range k).map f).flatten = [] := by
        rw [List.flatten_eq_nil_iff]
        intro l hl
        rcases List.mem_map.mp hl with ⟨w, hwmem, rfl⟩
        have hwlt := List.mem_range.mp hwmem
        exact hf w (by omega) (by omega)
      rw [hall]
      subst hw0
      simp [hf0]

/-- C2: if exactly one candidate in the space satisfies the probe, then for
every worker count k >= 1 the result queue ends up holding exactly one Found
message, pushed by the worker whose partition owns that candidate and
carrying it, and the coordinator's final report is that single message --
whatever the cancellation reads of the other workers are.  The owner's reads
are hypothesised all-false because the found event is set only on a success
and no other worker ever succeeds. -/
theorem single_winner (k idx : Nat) (xs : List String) (t : String)
    (probe : String → ProbeResult) (cancel : Nat → Nat → Bool)
    (hk : 1 ≤ k) (hnd : xs.Nodup) (hidx : xs[idx]? = some t)
    (hprobe : ∀ x ∈ xs, (isSuccess (probe x) = true ↔ x = t))
    (hc : ∀ n, cancel (idx % k) n = false) :
    ((List.range k).map
        (fun w => (runWorker w (cancel w) probe (isliceStep w k xs) 0).2.2)).flatten =
      [⟨idx % k, t, idx / k + 1⟩] ∧
    finalReport (((List.range k).map
        (fun w => (runWorker w (cancel w) probe (isliceStep w k xs) 0).2.2)).flatten) =
      some ⟨idx % k, t, idx / k + 1⟩ := by
  have hw0 : idx % k < k := Nat.mod_lt idx (by omega)
  have htmem : t ∈ xs := mem_of_getElem?_eq_some hidx
  have hfails : ∀ x ∈ xs, ∀ i, xs[i]? = some x → i ≠ idx → isSuccess (probe x) = false := by
    intro x hx i hxi hne
    by_contra hcon
    have hxt : x = t := (hprobe x hx).mp (by simpa using hcon)
    subst hxt
    rcases List.getElem?_eq_some.mp hxi with ⟨hi1, hi2⟩
    rcases List.getElem?_eq_some.mp hidx with ⟨hj1, hj2⟩
    exact hne ((List.Nodup.getElem_inj_iff hnd).mp (hi2.trans hj2.symm))
  have hother : ∀ w, w < k → w ≠ idx % k →
      (runWorker w (cancel w) probe (isliceStep w k xs) 0).2.2 = [] := by
    intro w hwk hne
    refine (runWorker_no_success w (cancel w) probe (isliceStep w k xs) 0 ?_).2
    intro c hcmem
    rcases mem_isliceStep k hk w xs c hcmem with ⟨i, hmod, hi⟩
    rw [Nat.mod_eq_of_lt hwk] at hmod
    have hne2 : i ≠ idx := by
      intro hcontra
      exact hne (by rw [← hcontra, hmod])
    exact hfails c (mem_of_getElem?_eq_some hi) i hi hne2
  have hts : isSuccess (probe t) = true := (hprobe t htmem).mpr rfl
  have hq : (isliceStep (idx % k) k xs)[idx / k]? = some t := by
    rw [isliceStep_getElem? k hk xs (idx % k) (idx / k), Nat.mod_add_div' idx k]
    exact hidx
  rcases List.getElem?_eq_some.mp hq with ⟨hqlt, hqval⟩
  have hsplit : isliceStep (idx % k) k xs =
      (isliceStep (idx % k) k xs).take (idx / k) ++
        t :: (isliceStep (idx % k) k xs).drop (idx / k + 1) := by
    conv_lhs => rw [← List.take_append_drop (idx / k) (isliceStep (idx % k) k xs)]
    rw [List.drop_eq_getElem_cons hqlt, hqval]
  have hprelen : ((isliceStep (idx % k) k xs).take (idx / k)).length = idx / k := by
    rw [List.length_take]
    omega
  have hprefail : ∀ c ∈ (isliceStep (idx % k) k xs).take (idx / k),
      isSuccess (probe c) = false := by
    intro c hcmem
    rcases List.mem_take_iff_getElem.mp hcmem with ⟨j, hjlt, hjval⟩
    have hjq : j < idx / k := lt_of_lt_of_le hjlt (min_le_left _ _)
    have hjlen : j < (isliceStep (idx % k) k xs).length := lt_of_lt_of_le hjlt (min_le_right _ _)
    have hcpos : xs[idx % k + j * k]? = some c := by
      rw [← isliceStep_getElem? k hk xs (idx % k) j, List.getElem?_eq_some]
      exact ⟨hjlen, hjval⟩
    have hlt : idx % k + j * k < idx := by
      have h1 : idx % k + idx / k * k = idx := Nat.mod_add_div' idx k
      have h2 : j * k + k ≤ idx / k * k := by
        calc j * k + k = (j + 1) * k := (Nat.succ_mul j k).symm
          _ ≤ idx / k * k := Nat.mul_le_mul_right k (Nat.succ_le_of_lt hjq)
      omega
    exact hfails c (mem_of_getElem?_eq_some hcpos) (idx % k + j * k) hcpos (by omega)
  have hcfun : cancel (idx % k) = fun _ => false := funext fun n => hc n
  have howner : runWorker (idx % k) (cancel (idx % k)) probe (isliceStep (idx % k) k xs) 0 =
      (WorkerState.Found, idx / k + 1, [⟨idx % k, t, idx / k + 1⟩]) := by
    rw [hcfun]
    conv_lhs => rw [hsplit]
    rw [runWorker_found (idx % k) probe t hts _ _ 0 hprefail, hprelen]
    simp
  have hflat : ((List.range k).map
      (fun w => (runWorker w (cancel w) probe (isliceStep w k xs) 0).2.2)).flatten =
      [⟨idx % k, t, idx / k + 1⟩] := by
    refine flatten_single k (idx % k) hw0 _ _ ?_ (fun w hwk hne => hother w hwk hne)
    rw [howner]
  exact ⟨hflat, by rw [hflat]; rfl⟩

/-- Concrete instance of the single-winner property: three candidates, two
workers, the unique success "c" owned by worker 0 as its second item. -/
theorem single_winner_witness :
    ((List.range 2).map
        (fun w => (runWorker w ((fun _ _ => false) w)
          (fun s => if s = "c" then ProbeResult.resp 200 else ProbeResult.resp 401)
          (isliceStep w 2 ["a", "b", "c"]) 0).2.2)).flatten =
      [⟨0, "c", 2⟩] ∧
    finalReport (((List.range 2).map
        (fun w => (runWorker w ((fun _ _ => false) w)
          (fun s => if s = "c" then ProbeResult.resp 200 else ProbeResult.resp 401)
          (isliceStep w 2 ["a", "b", "c"]) 0).2.2)).flatten) =
      some ⟨0, "c", 2⟩ := by
  have h := single_winner 2 2 ["a", "b", "c"] "c"
    (fun s => if s = "c" then ProbeResult.resp 200 else ProbeResult.resp 401)
    (fun _ _ => false) (by decide) (by decide) (by decide) (by decide) (fun n => rfl)
  exact ⟨h.1.trans rfl, h.2.trans rfl⟩

/-- A write-once flag that reads true at some check reads true at every later
check. -/
theorem cancel_stays (cancel : Nat → Bool)
    (hmono : ∀ i, cancel i = true → cancel (i + 1) = true)
    (n : Nat) (hset : cancel n = true) : ∀ m, n ≤ m → cancel m = true := by
  intro m
  induction m with
  | zero =>
    intro hm
    have h0 : n = 0 := Nat.le_zero.mp hm
    rw [← h0]
    exact hset
  | succ m ih =>
    intro hm
    rcases Nat.lt_or_ge n (m + 1) with h | h
    · exact hmono m (ih (by omega))
    · have h1 : n = m + 1 := by omega
      rw [← h1]
      exact hset

/-- A worker whose cancellation reads are monotone and read true at check n
terminates Cancelled with at most n probes issued, provided none of the first
n candidates of its partition succeeds and the partition is long enough to
reach a positive check. -/
theorem runWorker_cancelled_aux (wid n : Nat) (cancel : Nat → Bool)
    (probe : String → ProbeResult)
    (hmono : ∀ i, cancel i = true → cancel (i + 1) = true)
    (hset : cancel n = true) :
    ∀ (items : List String) (a : Nat), n - a < items.length → a ≤ n →
      (∀ i, a ≤ i → i < n → ∀ c, items[i - a]? = some c → isSuccess (probe c) = false) →
      ∃ a2, a2 ≤ n ∧ runWorker wid cancel probe items a = (WorkerState.Cancelled, a2, []) := by
  intro items
  induction items with
  | nil =>
    intro a h1 _ _
    simp at h1
  | cons c rest ih =>
    intro a h1 h2 h3
    by_cases hca : cancel a
    · exact ⟨a, h2, runWorker_cancelled_step wid cancel probe c rest a hca⟩
    · have han : a < n := by
        rcases Nat.lt_or_ge a n with h | h
        · exact h
        · exact absurd (cancel_stays cancel hmono n hset a h) (by simpa using hca)
      have hfc : isSuccess (probe c) = false := h3 a (le_refl a) han c (by simp)
      rw [runWorker_fail_step wid cancel probe c rest a (by simpa using hca) hfc]
      refine ih (a + 1) (by simp at h1 ⊢; omega) (by omega) ?_
      intro i hi1 hi2 c2 hc2
      refine h3 i (by omega) hi2 c2 ?_
      have hshift : i - a = (i - (a + 1)) + 1 := by omega
      rw [hshift, List.getElem?_cons_succ]
      exact hc2

/-- C6: the worker checks the found event before every probe call: a check
that reads the event set terminates the worker immediately as Cancelled, with
no further item pulled, no further probe issued and nothing pushed; and with
write-once reads that are set by check n, a worker none of whose first n
candidates succeeds issues at most n probe calls in total before terminating
Cancelled. -/
theorem cancellation_bound (wid n : Nat) (cancel : Nat → Bool)
    (probe : String → ProbeResult) (items : List String)
    (hmono : ∀ i, cancel i = true → cancel (i + 1) = true)
    (hset : cancel n = true)
    (hlen : n < items.length)
    (hfail : ∀ i, i < n → ∀ c, items[i]? = some c → isSuccess (probe c) = false) :
    (∀ (c : String) (rest : List String) (a : Nat), cancel a = true →
      runWorker wid cancel probe (c :: rest) a = (WorkerState.Cancelled, a, [])) ∧
    ∃ a2, a2 ≤ n ∧ runWorker wid cancel probe items 0 = (WorkerState.Cancelled, a2, []) := by
  refine ⟨fun c rest a h => runWorker_cancelled_step wid cancel probe c rest a h, ?_⟩
  refine runWorker_cancelled_aux wid n cancel probe hmono hset items 0 (by omega) (by omega) ?_
  intro i _ hi2 c hc
  exact hfail i hi2 c (by simpa using hc)

/-- Concrete instance of the cancellation bound: the flag reads set from the
very first check and the worker stops with zero probes issued. -/
theorem cancellation_bound_witness :
    runWorker 0 (fun _ => true) (fun _ => ProbeResult.resp 401) ["a", "b"] 0 =
      (WorkerState.Cancelled, 0, []) := by
  have h := cancellation_bound 0 0 (fun _ => true) (fun _ => ProbeResult.resp 401)
    ["a", "b"] (fun i h => h) rfl (by decide) (by intro i hi c hc; omega)
  exact h.1 "a" ["b"] 0 rfl

/-- Model of Python `range(n)` over the integer `--workers` argument: the ids
of the spawned workers (lines 199-206); empty when n <= 0. -/
def pythonRange (n : Int) : List Nat := List.range n.toNat

/-- Argument validation of `main` (lines 151-159): mono mode requires an
alphabet and dict mode a wordlist path, each exiting with code 2.  No check
involves the worker count. -/
def validateArgs (mode : String) (alphabet? listPath? : Option String) : Option Nat :=
  if mode = "mono" ∧ alphabet? = none then some 2
  else if mode = "dict" ∧ listPath? = none then some 2
  else none

/-- Control-flow skeleton of `main` (lines 151-241): validate the mode
arguments, spawn one worker per element of range(workers), join them, then
exit 0 when the result queue holds a message and 1 otherwise.  `workerMsgs w`
is the message list worker w pushed onto the queue. -/
def mainRun (workers : Int) (mode : String) (alphabet? listPath? : Option String)
    (workerMsgs : Nat → List Msg) : Nat :=
  match validateArgs mode alphabet? listPath? with
  | some code => code
  | none =>
    match ((pythonRange workers).map workerMsgs).flatten with
    | [] => 1
    | _ :: _ => 0

/-- C5 counterexample: with num_workers = 0 the coordinator raises no
configuration error at all -- validation passes, zero workers are spawned,
and the run falls through to the not-found exit code 1 instead of failing. -/
theorem workers_validation_counterexample :
    validateArgs "mono" (some "digits") none = none ∧
    pythonRange 0 = [] ∧
    mainRun 0 "mono" (some "digits") none (fun _ => [⟨0, "pw", 1⟩]) = 1 := by
  refine ⟨by decide, rfl, by decide⟩

/-- C5 amended: `main` validates only the mode-specific arguments and never
the worker count: for num_workers >= 1 exactly num_workers workers are
spawned, while for num_workers <= 0 no error is raised, zero workers are
spawned, and (when the mode arguments pass validation) the run reports
exhaustion with exit code 1. -/
theorem workers_spawn_amended (w : Int) (mode : String) (alphabet? listPath? : Option String)
    (workerMsgs : Nat → List Msg) :
    (1 ≤ w → ((pythonRange w).length : Int) = w) ∧
    (w ≤ 0 → pythonRange w = [] ∧
      (validateArgs mode alphabet? listPath? = none →
        mainRun w mode alphabet? listPath? workerMsgs = 1)) := by
  constructor
  · intro hw
    rw [pythonRange, List.length_range]
    exact Int.toNat_of_nonneg (by omega)
  · intro hw
    have hz : w.toNat = 0 := Int.toNat_of_nonpos hw
    have hr : pythonRange w = [] := by rw [pythonRange, hz]; rfl
    refine ⟨hr, fun hv => ?_⟩
    rw [mainRun, hv, hr]
    rfl

/-- Concrete instances of the amended spawning behaviour, at three workers and
at minus one workers. -/
theorem workers_spawn_amended_witness :
    ((pythonRange 3).length : Int) = 3 ∧
    pythonRange (-1) = [] ∧
    mainRun (-1) "poly" none none (fun _ => []) = 1 := by
  have h3 := (workers_spawn_amended 3 "poly" none none (fun _ => [])).1 (by decide)
  have hneg := (workers_spawn_amended (-1) "poly" none none (fun _ => [])).2 (by decide)
  exact ⟨h3, hneg.1, hneg.2 rfl⟩

/-- Model of `itertools.product(alphabet, repeat=n)`: all length-n character
tuples over the alphabet, the leftmost coordinate varying slowest. -/
def productStrings (alphabet : List Char) : Nat → List (List Char)
  | 0 => [[]]
  | n + 1 => alphabet.flatMap (fun c => (productStrings alphabet n).map (fun s => c :: s))

/-- generate_candidates_mono (attack/parallel_attack.py, lines 29-33): all
strings over the alphabet of lengths 1 through max_len, by increasing length
and, within one length, in product order. -/
def generate_candidates_mono (alphabet : List Char) (max_len : Nat) : List String :=
  (List.range max_len).flatMap
    (fun i => (productStrings alphabet (i + 1)).map (fun cs => String.mk cs))

/-- generate_candidates_poly (lines 36-39) delegates to the mono generator. -/
def generate_candidates_poly (alphabet : List Char) (max_len : Nat) : List String :=
  generate_candidates_mono alphabet max_len

/-- Membership in the n-fold product: exactly the length-n lists drawn from
the alphabet. -/
theorem mem_productStrings (A : List Char) :
    ∀ (n : Nat) (cs : List Char),
      cs ∈ productStrings A n ↔ cs.length = n ∧ ∀ c ∈ cs, c ∈ A := by
  intro n
  induction n with
  | zero =>
    intro cs
    constructor
    · intro h
      have hcs : cs = [] := by simpa [productStrings] using h
      subst hcs
      simp
    · rintro ⟨hl, _⟩
      have hcs : cs = [] := List.length_eq_zero.mp hl
      subst hcs
      simp [productStrings]
  | succ n ih =>
    intro cs
    rw [productStrings, List.mem_flatMap]
    constructor
    · rintro ⟨c, hc, hcs⟩
      rcases List.mem_map.mp hcs with ⟨cs2, hcs2, rfl⟩
      rcases (ih cs2).mp hcs2 with ⟨hl, hall⟩
      refine ⟨by simp [hl], ?_⟩
      intro d hd
      rcases List.mem_cons.mp hd with rfl | hd2
      · exact hc
      · exact hall d hd2
    · rintro ⟨hl, hall⟩
      match cs with
      | [] => simp at hl
      | c :: cs2 =>
        refine ⟨c, hall c (List.mem_cons_self c cs2), List.mem_map.mpr ⟨cs2, ?_, rfl⟩⟩
        refine (ih cs2).mpr ⟨by simpa using hl, fun d hd => hall d (List.mem_cons_of_mem c hd)⟩

/-- Over an alphabet of pairwise distinct characters, the n-fold product has
no duplicates. -/
theorem nodup_productStrings (A : List Char) (hA : A.Nodup) :
    ∀ n : Nat, (productStrings A n).Nodup := by
  intro n
  induction n with
  | zero => simp [productStrings]
  | succ n ih =>
    rw [productStrings, List.nodup_flatMap]
    refine ⟨fun c _ => ih.map (fun a b h => by injection h), ?_⟩
    refine hA.imp ?_
    intro a b hab
    intro cs hca hcb
    rcases List.mem_map.mp hca with ⟨cs1, _, rfl⟩
    rcases List.mem_map.mp hcb with ⟨cs2, _, heq⟩
    exact hab (by injection heq.symm)

/-- Every member of generate_candidates_mono is a string of length 1..max_len
over the alphabet, and conversely. -/
theorem mem_generate_candidates_mono (A : List Char) (m : Nat) (s : String) :
    s ∈ generate_candidates_mono A m ↔
      1 ≤ s.data.length ∧ s.data.length ≤ m ∧ ∀ c ∈ s.data, c ∈ A := by
  rw [generate_candidates_mono, List.mem_flatMap]
  constructor
  · rintro ⟨i, hi, hmem⟩
    rcases List.mem_map.mp hmem with ⟨cs, hcs, rfl⟩
    rcases (mem_productStrings A (i + 1) cs).mp hcs with ⟨hl, hall⟩
    have hrange := List.mem_range.mp hi
    refine ⟨by simp [hl], by simp [hl]; omega, ?_⟩
    intro c hc
    exact hall c hc
  · rintro ⟨h1, h2, hall⟩
    refine ⟨s.data.length - 1, List.mem_range.mpr (by omega), ?_⟩
    refine List.mem_map.mpr ⟨s.data, ?_, rfl⟩
    exact (mem_productStrings A (s.data.length - 1 + 1) s.data).mpr ⟨by omega, hall⟩

/-- Over an alphabet of pairwise distinct characters the generated candidate
sequence has no duplicates. -/
theorem nodup_generate_candidates_mono (A : List Char) (m : Nat) (hA : A.Nodup) :
    (generate_candidates_mono A m).Nodup := by
  rw [generate_candidates_mono, List.nodup_flatMap]
  constructor
  · intro i _
    refine (nodup_productStrings A hA (i + 1)).map ?_
    intro a b h
    injection h
  · refine (List.nodup_range m).imp ?_
    intro a b hab
    intro s hsa hsb
    rcases List.mem_map.mp hsa with ⟨cs1, hcs1, rfl⟩
    rcases List.mem_map.mp hsb with ⟨cs2, hcs2, heq⟩
    have hl1 := ((mem_productStrings A (a + 1) cs1).mp hcs1).1
    have hl2 := ((mem_productStrings A (b + 1) cs2).mp hcs2).1
    have hdata : cs2 = cs1 := by injection heq
    subst hdata
    omega

/-- The generated sequence is ordered by nondecreasing length. -/
theorem length_sorted_generate_candidates_mono (A : List Char) (m : Nat) :
    (generate_candidates_mono A m).Pairwise (fun a b => a.data.length ≤ b.data.length) := by
  induction m with
  | zero => simp [generate_candidates_mono]
  | succ m ih =>
    rw [generate_candidates_mono, List.range_succ, List.flatMap_append] at *
    rw [List.pairwise_append]
    refine ⟨ih, ?_, ?_⟩
    · simp only [List.flatMap_cons, List.flatMap_nil, List.append_nil]
      refine List.pairwise_of_forall_mem_list ?_
      intro a ha b hb
      rcases List.mem_map.mp ha with ⟨cs1, hcs1, rfl⟩
      rcases List.mem_map.mp hb with ⟨cs2, hcs2, rfl⟩
      have hl1 := ((mem_productStrings A (m + 1) cs1).mp hcs1).1
      have hl2 := ((mem_productStrings A (m + 1) cs2).mp hcs2).1
      simp [hl1, hl2]
    · intro a ha b hb
      obtain ⟨_, hmema, _⟩ := (mem_generate_candidates_mono A m a).mp ha
      simp only [List.flatMap_cons, List.flatMap_nil, List.append_nil] at hb
      rcases List.mem_map.mp hb with ⟨cs2, hcs2, rfl⟩
      have hl2 := ((mem_productStrings A (m + 1) cs2).mp hcs2).1
      show a.data.length ≤ (String.mk cs2).data.length
      have hd : (String.mk cs2).data = cs2 := rfl
      rw [hd, hl2]
      omega

/-- C8: over an alphabet of pairwise distinct characters and max_len >= 1,
the mono generator yields exactly the strings over the alphabet of lengths 1
through max_len, each exactly once, in nondecreasing length order, with the
poly generator yielding the very same sequence; for alphabet "01" and max
length 2 the sequence is exactly "0", "1", "00", "01", "10", "11". -/
theorem generator_exact (A : List Char) (m : Nat) (hA : A.Nodup) (hm : 1 ≤ m) :
    (∀ s : String, s ∈ generate_candidates_mono A m ↔
      1 ≤ s.data.length ∧ s.data.length ≤ m ∧ ∀ c ∈ s.data, c ∈ A) ∧
    (generate_candidates_mono A m).Nodup ∧
    (generate_candidates_mono A m).Pairwise (fun a b => a.data.length ≤ b.data.length) ∧
    generate_candidates_poly A m = generate_candidates_mono A m ∧
    generate_candidates_mono ['0', '1'] 2 = ["0", "1", "00", "01", "10", "11"] := by
  exact ⟨fun s => mem_generate_candidates_mono A m s,
    nodup_generate_candidates_mono A m hA,
    length_sorted_generate_candidates_mono A m, rfl, by decide⟩

/-- Concrete instance of the generator characterisation for alphabet "01" and
max length 2. -/
theorem generator_exact_witness :
    ("10" ∈ generate_candidates_mono ['0', '1'] 2 ↔
      1 ≤ "10".data.length ∧ "10".data.length ≤ 2 ∧ ∀ c ∈ "10".data, c ∈ ['0', '1']) ∧
    (generate_candidates_mono ['0', '1'] 2).Nodup ∧
    generate_candidates_mono ['0', '1'] 2 = ["0", "1", "00", "01", "10", "11"] := by
  have h := generator_exact ['0', '1'] 2 (by decide) (by decide)
  exact ⟨h.1 "10", h.2.1, h.2.2.2.2⟩

namespace Rainbow

/-- A message on the rainbow result queue (parallel_rainbow_attack.py, lines
76-99): one CRACKED or NOT_FOUND message per processed user, plus one
terminal DONE message per worker carrying its two counters. -/
inductive RMsg where
  | cracked (wid : Nat) (username password hash : String)
  | not_found (wid : Nat) (username hash : String)
  | done (wid : Nat) (found nf : Nat)
deriving DecidableEq, Repr

/-- Per-item decision of the rainbow worker (lines 70-91): CRACKED with the
recovered plaintext when the hash of the stored password is a key of the
table, NOT_FOUND otherwise.  `sha1hex` models hashlib.sha1(...).hexdigest()
and `table` the loaded JSON dict. -/
def itemMsg (sha1hex : String → String) (table : String → Option String)
    (wid : Nat) (u : String × String) : RMsg :=
  match table (sha1hex u.2) with
  | some plain => RMsg.cracked wid u.1 plain (sha1hex u.2)
  | none => RMsg.not_found wid u.1 (sha1hex u.2)

/-- Loop of worker_process (lines 62-99): per user hash the stored password,
push the per-item verdict and bump the matching counter, and after the last
user push the terminal DONE message with both counters. -/
def workerLoop (sha1hex : String → String) (table : String → Option String)
    (wid : Nat) (found nf : Nat) : List (String × String) → List RMsg
  | [] => [RMsg.done wid found nf]
  | (username, pwd) :: rest =>
    match table (sha1hex pwd) with
    | some plain =>
        RMsg.cracked wid username plain (sha1hex pwd) ::
          workerLoop sha1hex table wid (found + 1) nf rest
    | none =>
        RMsg.not_found wid username (sha1hex pwd) ::
          workerLoop sha1hex table wid found (nf + 1) rest

/-- worker_process (lines 52-99): partition the user list with
islice(users, worker_id, None, num_workers) and run the loop with both
counters starting at zero. -/
def workerRun (sha1hex : String → String) (table : String → Option String)
    (wid k : Nat) (users : List (String × String)) : List RMsg :=
  workerLoop sha1hex table wid 0 0 (isliceStep wid k users)

/-- Number of users of a list whose hashed stored password is a key of the
rainbow table. -/
def crackedOf (sha1hex : String → String) (table : String → Option String)
    (us : List (String × String)) : Nat :=
  (us.filter (fun u => (table (sha1hex u.2)).isSome)).length

/-- Number of users of a list whose hashed stored password is absent from the
rainbow table. -/
def notFoundOf (sha1hex : String → String) (table : String → Option String)
    (us : List (String × String)) : Nat :=
  (us.filter (fun u => (table (sha1hex u.2)).isNone)).length

/-- Coordinator aggregation (lines 173-184): sum the found and not_found
fields of the DONE messages; the per-item messages only affect printing. -/
def doneTotals : List RMsg → Nat × Nat
  | [] => (0, 0)
  | RMsg.done _ f nf :: rest => ((doneTotals rest).1 + f, (doneTotals rest).2 + nf)
  | RMsg.cracked _ _ _ _ :: rest => doneTotals rest
  | RMsg.not_found _ _ _ :: rest => doneTotals rest

/-- The worker loop emits exactly one per-item verdict per user, in order,
followed by the single terminal DONE message carrying both counters. -/
theorem workerLoop_eq (sha1hex : String → String) (table : String → Option String)
    (wid : Nat) :
    ∀ (us : List (String × String)) (f nf : Nat),
      workerLoop sha1hex table wid f nf us =
        us.map (itemMsg sha1hex table wid) ++
          [RMsg.done wid (f + crackedOf sha1hex table us)
            (nf + notFoundOf sha1hex table us)] := by
  intro us
  induction us with
  | nil => intro f nf; simp [workerLoop, crackedOf, notFoundOf]
  | cons u rest ih =>
    intro f nf
    obtain ⟨username, pwd⟩ := u
    cases hp : table (sha1hex pwd) with
    | some plain =>
      have hcr : crackedOf sha1hex table ((username, pwd) :: rest) =
          crackedOf sha1hex table rest + 1 := by
        simp [crackedOf, List.filter_cons, hp]
      have hnf : notFoundOf sha1hex table ((username, pwd) :: rest) =
          notFoundOf sha1hex table rest := by
        simp [notFoundOf, List.filter_cons, hp]
      have hitem : itemMsg sha1hex table wid (username, pwd) =
          RMsg.cracked wid username plain (sha1hex pwd) := by
        simp [itemMsg, hp]
      calc workerLoop sha1hex table wid f nf ((username, pwd) :: rest)
          = RMsg.cracked wid username plain (sha1hex pwd) ::
              workerLoop sha1hex table wid (f + 1) nf rest := by
            simp [workerLoop, hp]
        _ = _ := by
            have harith : f + 1 + crackedOf sha1hex table rest =
                f + (crackedOf sha1hex table rest + 1) := by omega
            rw [ih (f + 1) nf, hcr, hnf, List.map_cons, hitem, List.cons_append, harith]
    | none =>
      have hcr : crackedOf sha1hex table ((username, pwd) :: rest) =
          crackedOf sha1hex table rest := by
        simp [crackedOf, List.filter_cons, hp]
      have hnf : notFoundOf sha1hex table ((username, pwd) :: rest) =
          notFoundOf sha1hex table rest + 1 := by
        simp [notFoundOf, List.filter_cons, hp]
      have hitem : itemMsg sha1hex table wid (username, pwd) =
          RMsg.not_found wid username (sha1hex pwd) := by
        simp [itemMsg, hp]
      calc workerLoop sha1hex table wid f nf ((username, pwd) :: rest)
          = RMsg.not_found wid username (sha1hex pwd) ::
              workerLoop sha1hex table wid f (nf + 1) rest := by
            simp [workerLoop, hp]
        _ = _ := by
            have harith : nf + 1 + notFoundOf sha1hex table rest =
                nf + (notFoundOf sha1hex table rest + 1) := by omega
            rw [ih f (nf + 1), hcr, hnf, List.map_cons, hitem, List.cons_append, harith]

theorem doneTotals_append : ∀ a b : List RMsg,
    doneTotals (a ++ b) =
      ((doneTotals a).1 + (doneTotals b).1, (doneTotals a).2 + (doneTotals b).2) := by
  intro a
  induction a with
  | nil => intro b; simp [doneTotals]
  | cons x rest ih =>
    intro b
    cases x with
    | cracked w u p h => simpa [doneTotals] using ih b
    | not_found w u h => simpa [doneTotals] using ih b
    | done w f nf =>
      rw [List.cons_append]
      simp only [doneTotals, ih b, Prod.mk.injEq]
      omega

theorem doneTotals_map_itemMsg (sha1hex : String → String) (table : String → Option String)
    (wid : Nat) : ∀ us : List (String × String),
      doneTotals (us.map (itemMsg sha1hex table wid)) = (0, 0) := by
  intro us
  induction us with
  | nil => rfl
  | cons u rest ih =>
    cases hp : table (sha1hex u.2) with
    | some plain => simpa [itemMsg, hp, doneTotals] using ih
    | none => simpa [itemMsg, hp, doneTotals] using ih

/-- The DONE message of one worker carries exactly the counts of CRACKED and
NOT_FOUND verdicts it emitted. -/
theorem doneTotals_workerRun (sha1hex : String → String) (table : String → Option String)
    (wid k : Nat) (users : List (String × String)) :
    doneTotals (workerRun sha1hex table wid k users) =
      (crackedOf sha1hex table (isliceStep wid k users),
       notFoundOf sha1hex table (isliceStep wid k users)) := by
  rw [workerRun, workerLoop_eq, doneTotals_append, doneTotals_map_itemMsg]
  simp [doneTotals]

theorem doneTotals_flatten : ∀ L : List (List RMsg),
    doneTotals L.flatten =
      ((L.map (fun l => (doneTotals l).1)).sum, (L.map (fun l => (doneTotals l).2)).sum) := by
  intro L
  induction L with
  | nil => rfl
  | cons l rest ih =>
    rw [List.flatten_cons, doneTotals_append, ih]
    simp

theorem filter_flatten_length (p : α → Bool) : ∀ L : List (List α),
    (L.flatten.filter p).length = (L.map (fun l => (l.filter p).length)).sum := by
  intro L
  induction L with
  | nil => rfl
  | cons l rest ih =>
    rw [List.flatten_cons, List.filter_append, List.length_append, ih, List.map_cons,
      List.sum_cons]

theorem sum_crackedOf_parts (sha1hex : String → String) (table : String → Option String)
    (k : Nat) (hk : 1 ≤ k) (users : List (String × String)) :
    ((List.range k).map (fun w => crackedOf sha1hex table (isliceStep w k users))).sum =
      crackedOf sha1hex table users := by
  have h1 := ((flatten_parts_perm k hk users).filter
    (fun u => (table (sha1hex u.2)).isSome)).length_eq
  rw [filter_flatten_length, List.map_map] at h1
  simpa [crackedOf, Function.comp] using h1

theorem sum_notFoundOf_parts (sha1hex : String → String) (table : String → Option String)
    (k : Nat) (hk : 1 ≤ k) (users : List (String × String)) :
    ((List.range k).map (fun w => notFoundOf sha1hex table (isliceStep w k users))).sum =
      notFoundOf sha1hex table users := by
  have h1 := ((flatten_parts_perm k hk users).filter
    (fun u => (table (sha1hex u.2)).isNone)).length_eq
  rw [filter_flatten_length, List.map_map] at h1
  simpa [notFoundOf, Function.comp] using h1

theorem crackedOf_add_notFoundOf (sha1hex : String → String) (table : String → Option String) :
    ∀ us : List (String × String),
      crackedOf sha1hex table us + notFoundOf sha1hex table us = us.length := by
  intro us
  induction us with
  | nil => rfl
  | cons u rest ih =>
    cases hp : table (sha1hex u.2) with
    | some plain =>
      simp only [crackedOf, notFoundOf, List.filter_cons, hp] at ih ⊢
      simp at ih ⊢
      omega
    | none =>
      simp only [crackedOf, notFoundOf, List.filter_cons, hp] at ih ⊢
      simp at ih ⊢
      omega

end Rainbow

/-- C7: every rainbow worker processes its whole partition with no early
exit, emitting exactly one per-item verdict per assigned user -- CRACKED when
the hash of the stored password is a key of the rainbow table, NOT_FOUND
otherwise -- followed by one terminal DONE message whose two counters equal
the numbers of CRACKED and NOT_FOUND verdicts it emitted and sum to its
partition size; the coordinator sums the DONE counters of all workers, and
those aggregate totals sum to the full user count. -/
theorem rainbow_full_reconciliation (sha1hex : String → String)
    (table : String → Option String) (k : Nat) (users : List (String × String))
    (hk : 1 ≤ k) :
    (∀ w, Rainbow.workerRun sha1hex table w k users =
        (isliceStep w k users).map (Rainbow.itemMsg sha1hex table w) ++
          [Rainbow.RMsg.done w (Rainbow.crackedOf sha1hex table (isliceStep w k users))
            (Rainbow.notFoundOf sha1hex table (isliceStep w k users))]) ∧
    (∀ w, Rainbow.crackedOf sha1hex table (isliceStep w k users) +
        Rainbow.notFoundOf sha1hex table (isliceStep w k users) =
          (isliceStep w k users).length) ∧
    Rainbow.doneTotals
        (((List.range k).map (fun w => Rainbow.workerRun sha1hex table w k users)).flatten) =
      (((List.range k).map
          (fun w => Rainbow.crackedOf sha1hex table (isliceStep w k users))).sum,
       ((List.range k).map
          (fun w => Rainbow.notFoundOf sha1hex table (isliceStep w k users))).sum) ∧
    ((List.range k).map (fun w => Rainbow.crackedOf sha1hex table (isliceStep w k users))).sum +
        ((List.range k).map
          (fun w => Rainbow.notFoundOf sha1hex table (isliceStep w k users))).sum =
      users.length := by
  refine ⟨?_, ?_, ?_, ?_⟩
  · intro w
    rw [Rainbow.workerRun, Rainbow.workerLoop_eq]
    simp
  · intro w
    exact Rainbow.crackedOf_add_notFoundOf sha1hex table (isliceStep w k users)
  · rw [Rainbow.doneTotals_flatten, List.map_map, List.map_map]
    refine congrArg₂ Prod.mk ?_ ?_
    · refine congrArg List.sum (List.map_congr_left ?_)
      intro w _
      simp [Function.comp, Rainbow.doneTotals_workerRun]
    · refine congrArg List.sum (List.map_congr_left ?_)
      intro w _
      simp [Function.comp, Rainbow.doneTotals_workerRun]
  · rw [Rainbow.sum_crackedOf_parts sha1hex table k hk users,
      Rainbow.sum_notFoundOf_parts sha1hex table k hk users]
    exact Rainbow.crackedOf_add_notFoundOf sha1hex table users

/-- Concrete instance of the rainbow reconciliation: two workers over three
users of which two have a password hashing into the table. -/
theorem rainbow_full_reconciliation_witness :
    Rainbow.workerRun (fun s => s) (fun h => if h = "b" then some "pw" else none) 0 2
        [("u", "a"), ("v", "b"), ("w", "b")] =
      (isliceStep 0 2 [("u", "a"), ("v", "b"), ("w", "b")]).map
        (Rainbow.itemMsg (fun s => s) (fun h => if h = "b" then some "pw" else none) 0) ++
        [Rainbow.RMsg.done 0
          (Rainbow.crackedOf (fun s => s) (fun h => if h = "b" then some "pw" else none)
            (isliceStep 0 2 [("u", "a"), ("v", "b"), ("w", "b")]))
          (Rainbow.notFoundOf (fun s => s) (fun h => if h = "b" then some "pw" else none)
            (isliceStep 0 2 [("u", "a"), ("v", "b"), ("w", "b")]))] ∧
    ((List.range 2).map (fun w =>
        Rainbow.crackedOf (fun s => s) (fun h => if h = "b" then some "pw" else none)
          (isliceStep w 2 [("u", "a"), ("v", "b"), ("w", "b")]))).sum +
      ((List.range 2).map (fun w =>
        Rainbow.notFoundOf (fun s => s) (fun h => if h = "b" then some "pw" else none)
          (isliceStep w 2 [("u", "a"), ("v", "b"), ("w", "b")]))).sum = 3 := by
  have h := rainbow_full_reconciliation (fun s => s)
    (fun h => if h = "b" then some "pw" else none) 2
    [("u", "a"), ("v", "b"), ("w", "b")] (by decide)
  exact ⟨h.1 0, h.2.2.2.trans rfl⟩

end ParallelAttack
